import Mathlib

/-!
Verification development for the hybrid retrieval and re-ranking pipeline of a
document-question-answering backend.  The Python sources are shallowly embedded:
text is `List Char`, floating point scores are `ℚ`, Python dictionaries with a
fixed key set become structures with `Option` fields, and the external
collaborators (vector search, embedding, cross-encoder scorer, the float
logistic and the float natural logarithm) are injected as function parameters.
-/

namespace Functiomed

/-- Python strings are modelled as lists of characters. -/
abbrev Str := List Char

/-- Python whitespace class, as used by the regexes and by str.strip. -/
def isWsB (c : Char) : Bool :=
  c = ' ' || c = '\t' || c = '\n' || c = '\r' || c = Char.ofNat 11 || c = Char.ofNat 12

/-- The punctuation class of the run-collapsing regex in
QueryNormalizer._clean_punctuation. -/
def isPunctB (c : Char) : Bool :=
  c = '?' || c = '.' || c = '!' || c = ',' || c = ';' || c = ':'

/-- The punctuation class stripped from the edges in
QueryNormalizer._clean_punctuation (question marks are kept). -/
def isEdgePunctB (c : Char) : Bool :=
  c = '.' || c = ',' || c = ';' || c = ':' || c = '!'

/-- Drop the longest prefix and the longest suffix whose characters satisfy p.
Used for str.strip (with the whitespace class) and for the leading and trailing
punctuation removal regexes. -/
def dropEdges (p : Char → Bool) (s : Str) : Str :=
  (((s.dropWhile p).reverse).dropWhile p).reverse

/-- str.strip of the Python sources. -/
def stripWs (s : Str) : Str := dropEdges isWsB s

/-- Auxiliary scanner for the whitespace-collapsing regex: the flag records
whether the previous character was whitespace. -/
def collapseWsAux : Bool → Str → Str
  | _, [] => []
  | prevWs, c :: cs =>
    if isWsB c then
      if prevWs then collapseWsAux true cs
      else ' ' :: collapseWsAux true cs
    else c :: collapseWsAux false cs

/-- QueryNormalizer._clean_whitespace: collapse every whitespace run to one
space, then strip. -/
def cleanWhitespace (s : Str) : Str := stripWs (collapseWsAux false s)

/-- The run-collapsing regex of _clean_punctuation: a run of two or more
punctuation characters is replaced by its last character (a punctuation
character is dropped exactly when the next character is also punctuation). -/
def collapsePunct : Str → Str
  | [] => []
  | [c] => [c]
  | c :: d :: rest =>
    if isPunctB c && isPunctB d then collapsePunct (d :: rest)
    else c :: collapsePunct (d :: rest)

/-- QueryNormalizer._clean_punctuation: collapse punctuation runs, then drop
leading and trailing punctuation other than question marks. -/
def cleanPunctuation (s : Str) : Str := dropEdges isEdgePunctB (collapsePunct s)

/-- Python str.lower restricted to the alphabet used by this code base: ASCII
together with the German and French accented letters appearing in the sources. -/
def pyToLower (c : Char) : Char :=
  if c = 'Ä' then 'ä' else if c = 'Ö' then 'ö' else if c = 'Ü' then 'ü'
  else if c = 'À' then 'à' else if c = 'Â' then 'â' else if c = 'É' then 'é'
  else if c = 'È' then 'è' else if c = 'Ê' then 'ê' else if c = 'Ë' then 'ë'
  else if c = 'Ï' then 'ï' else if c = 'Î' then 'î' else if c = 'Ô' then 'ô'
  else if c = 'Ù' then 'ù' else if c = 'Û' then 'û' else if c = 'Ÿ' then 'ÿ'
  else if c = 'Ç' then 'ç' else c.toLower

/-- Lower-case accented letters appearing in the tokenizer regex and queries. -/
def accentLower : List Char :=
  ['ä', 'ö', 'ü', 'ß', 'à', 'â', 'é', 'è', 'ê', 'ë', 'ï', 'î', 'ô', 'ù', 'û', 'ÿ', 'ç']

/-- Upper-case accented letters of the modelled alphabet. -/
def accentUpper : List Char :=
  ['Ä', 'Ö', 'Ü', 'À', 'Â', 'É', 'È', 'Ê', 'Ë', 'Ï', 'Î', 'Ô', 'Ù', 'Û', 'Ÿ', 'Ç']

/-- The regex word class over the modelled alphabet: ASCII alphanumerics, the
underscore, and the accented letters. -/
def isWordCharB (c : Char) : Bool :=
  c.isAlphanum || c = '_' || accentLower.contains c || accentUpper.contains c

/-- Maximal runs of characters satisfying p; the first argument accumulates the
current run in reverse. -/
def splitRunsAux (p : Char → Bool) : Str → Str → List Str
  | cur, [] => if cur.isEmpty then [] else [cur.reverse]
  | cur, c :: cs =>
    if p c then splitRunsAux p (c :: cur) cs
    else if cur.isEmpty then splitRunsAux p [] cs
    else cur.reverse :: splitRunsAux p [] cs

/-- Maximal runs of characters satisfying p, starting with an empty run. -/
def splitRuns (p : Char → Bool) (s : Str) : List Str := splitRunsAux p [] s

/-- The word list of _detect_language: the maximal word-character runs of the
lower-cased text. -/
def wordsOf (t : Str) : List Str := splitRuns isWordCharB (t.map pyToLower)

/-- German indicator words of QueryNormalizer. -/
def germanIndicators : List Str :=
  ["der", "die", "das", "und", "ist", "von", "für", "mit", "auf",
   "eine", "einem", "einen", "welche", "welcher", "welches",
   "funktioniert", "bietet", "kostet", "können", "möchte"].map String.data

/-- English indicator words of QueryNormalizer. -/
def englishIndicators : List Str :=
  ["the", "and", "is", "for", "with", "what", "how", "can", "does",
   "which", "where", "when", "why", "offer", "cost", "provide"].map String.data

/-- French indicator words of QueryNormalizer. -/
def frenchIndicators : List Str :=
  ["le", "la", "les", "un", "une", "des", "et", "est", "de", "pour",
   "avec", "que", "qui", "quoi", "comment", "quand", "où", "pourquoi",
   "offre", "coût", "fournir", "quel", "quelle"].map String.data

/-- Size of the intersection of the set of words of the text with an indicator
set, as computed by _detect_language. -/
def indicatorCount (indicators : List Str) (t : Str) : Nat :=
  ((wordsOf t).dedup).countP (fun w => indicators.contains w)

/-- The umlaut regex of _detect_language, checked on the original-cased text. -/
def hasUmlaut (t : Str) : Bool :=
  t.any (fun c => (['ä', 'ö', 'ü', 'Ä', 'Ö', 'Ü', 'ß'] : List Char).contains c)

/-- The French accent regex of _detect_language. -/
def hasFrenchAccent (t : Str) : Bool :=
  t.any (fun c =>
    (['à', 'â', 'ä', 'é', 'è', 'ê', 'ë', 'ï', 'î', 'ô', 'ù', 'û', 'ü', 'ÿ', 'ç',
      'À', 'Â', 'Ä', 'É', 'È', 'Ê', 'Ë', 'Ï', 'Î', 'Ô', 'Ù', 'Û', 'Ü', 'Ÿ', 'Ç'] :
      List Char).contains c)

/-- QueryNormalizer._detect_language. -/
def detectLanguage (text : Str) : Option Str :=
  let g := indicatorCount germanIndicators text
  let e := indicatorCount englishIndicators text
  let f := indicatorCount frenchIndicators text
  let m := max g (max e f)
  if m = 0 then
    if hasUmlaut text then some "DE".data
    else if hasFrenchAccent text then some "FR".data
    else none
  else if g = m then some "DE".data
  else if e = m then some "EN".data
  else if f = m then some "FR".data
  else none

/-- Result record of QueryNormalizer.normalize. -/
structure NormalizedQuery where
  original : Str
  normalized : Str
  detectedLanguage : Option Str
  charCount : Nat
  wasModified : Bool
deriving DecidableEq, Repr

/-- QueryNormalizer.normalize: whitespace cleanup, punctuation cleanup, language
detection, strip, and hard truncation to maxLength; an empty or all-whitespace
query is rejected. -/
def normalize (maxLength : Nat) (query : Str) : Except Unit NormalizedQuery :=
  if stripWs query = [] then .error ()
  else
    let n1 := cleanWhitespace query
    let n2 := cleanPunctuation n1
    let lang := detectLanguage n2
    let n3 := stripWs n2
    let n4 := if maxLength < n3.length then stripWs (n3.take maxLength) else n3
    .ok { original := query, normalized := n4, detectedLanguage := lang,
          charCount := n4.length, wasModified := n4 != stripWs query }

/-! ## BM25 keyword index (backend/app/utils/bm25_search.py) -/

/-- A metadata or payload dictionary: the fixed key set used by the pipeline,
each key possibly absent. -/
structure Meta where
  chunkId : Option Str := none
  text : Option Str := none
  sourceDocument : Option Str := none
  category : Option Str := none
  language : Option Str := none
  sourceType : Option Str := none
  chunkIndex : Option Nat := none
  totalChunks : Option Nat := none
deriving DecidableEq, Repr, Inhabited

/-- A search-result dictionary as passed between the pipeline stages.  BM25
results populate text, metadata, rank and docIndex; vector-search results
populate id, payload; the orchestrator adds originalScore and
crossEncoderScore after re-ranking.  Reading a key with a Python default
becomes Option.getD; score is present on every result the code constructs. -/
structure PyResult where
  id : Option Nat := none
  score : ℚ := 0
  text : Option Str := none
  payload : Option Meta := none
  metadata : Option Meta := none
  rank : Option Nat := none
  docIndex : Option Nat := none
  originalScore : Option ℚ := none
  crossEncoderScoreKey : Option ℚ := none
deriving DecidableEq, Repr, Inhabited

/-- Characters kept by the tokenizer regex of BM25._tokenize: word characters,
whitespace and hyphens (the accent list of the regex is contained in the word
class); every other character is replaced by a space. -/
def isTokenKeepB (c : Char) : Bool := isWordCharB c || isWsB c || c = '-'

/-- The raw whitespace-split tokens of BM25._tokenize, before the length and
digit filter: lower-case, replace the non-kept characters by spaces, split. -/
def preTokens (text : Str) : List Str :=
  let lowered := text.map pyToLower
  let substituted := lowered.map (fun c => if isTokenKeepB c then c else ' ')
  splitRuns (fun c => !isWsB c) substituted

/-- BM25._tokenize: lower-case, replace the non-kept characters by spaces,
split on whitespace, and drop tokens of length at most 2 or consisting only of
digits. -/
def tokenize (text : Str) : List Str :=
  (preTokens text).filter (fun t => decide (2 < t.length) && !(t.all Char.isDigit))

/-- A Python Counter over tokens, with keys in first-appearance order. -/
def countTokens (toks : List Str) : List (Str × Nat) :=
  toks.dedup.map (fun t => (t, toks.count t))

/-- The state of a BM25 instance. -/
structure BM25 where
  k1 : ℚ := 3 / 2
  b : ℚ := 3 / 4
  corpus : List Str := []
  corpusMetadata : List Meta := []
  docFreqs : List (List (Str × Nat)) := []
  idf : List (Str × ℚ) := []
  docLen : List Nat := []
  avgdl : ℚ := 0
  numDocs : Nat := 0
deriving DecidableEq, Repr

/-- BM25.index: build the frequency tables, the document lengths, the average
length and the IDF table from a corpus snapshot.  The float math.log is
injected as the parameter log; a length mismatch between corpus and metadata
is a ValueError, modelled as none. -/
def BM25.indexCorpus (log : ℚ → ℚ) (m : BM25) (corpus : List Str)
    (metadata : List Meta) : Option BM25 :=
  if corpus.length ≠ metadata.length then none
  else
    let docFreqs := corpus.map (fun doc => countTokens (tokenize doc))
    let docLen := corpus.map (fun doc => (tokenize doc).length)
    let numDocs := corpus.length
    let avgdl : ℚ := if numDocs = 0 then 0 else (docLen.map (fun n => (n : ℚ))).sum / numDocs
    let vocabL := ((docFreqs.map (fun d => d.map Prod.fst)).flatten).dedup
    let idfL := vocabL.map (fun t =>
      let freq := docFreqs.countP (fun d => (d.lookup t).isSome)
      (t, log (((numDocs : ℚ) - (freq : ℚ) + 1 / 2) / ((freq : ℚ) + 1 / 2) + 1)))
    some { m with
           corpus := corpus
           corpusMetadata := metadata
           docFreqs := docFreqs
           idf := idfL
           docLen := docLen
           avgdl := avgdl
           numDocs := numDocs }

/-- The filter dictionary handed to BM25.search by the orchestrator: a category
list (OR semantics) and an exact-match language. -/
structure BmFilters where
  category : Option (List Str) := none
  language : Option Str := none
deriving DecidableEq, Repr

/-- BM25._matches_filters: a key absent from the metadata never excludes the
document; a list-valued filter is membership, a single value exact equality. -/
def matchesFilters (md : Meta) (f : BmFilters) : Bool :=
  (match f.category, md.category with
   | some cats, some c => cats.contains c
   | _, _ => true) &&
  (match f.language, md.language with
   | some l, some ml => ml == l
   | _, _ => true)

/-- The BM25 score of one document for the query tokens (the inner loop of
BM25.search); duplicated query tokens contribute once per occurrence. -/
def bmScore (m : BM25) (qtoks : List Str) (docIdx : Nat) : ℚ :=
  let dfreq := m.docFreqs.getD docIdx []
  let dlen : ℚ := (m.docLen.getD docIdx 0 : Nat)
  qtoks.foldl (fun acc t =>
    match dfreq.lookup t with
    | none => acc
    | some freq =>
      let idfv := ((m.idf.lookup t).getD 0)
      let num := (freq : ℚ) * (m.k1 + 1)
      let den := (freq : ℚ) + m.k1 * (1 - m.b + m.b * (dlen / m.avgdl))
      acc + idfv * (num / den)) 0

/-- The per-document score list of BM25.search: a document failing the filter
scores 0 and is thereby excluded before ranking. -/
def rawScores (m : BM25) (qtoks : List Str) (filters : Option BmFilters) : List ℚ :=
  (List.range m.docFreqs.length).map (fun i =>
    match filters with
    | some f =>
      if matchesFilters (m.corpusMetadata.getD i default) f then bmScore m qtoks i else 0
    | none => bmScore m qtoks i)

/-- Python max over a score list; an empty list yields the guard value 1.0
used by BM25.search. -/
def listMax : List ℚ → ℚ
  | [] => 1
  | x :: xs => xs.foldl max x

/-- Normalize the batch of scores by its maximum when that maximum is
positive. -/
def normalizeScores (scores : List ℚ) : List ℚ :=
  if 0 < listMax scores then scores.map (fun s => s / listMax scores) else scores

/-- The comparison used to model np.argsort on the score list: ascending by
score with the index as tie-break, which is exactly a stable ascending
argsort (numpy uses an insertion sort on the small batches ranked here). -/
def argsortRel (scores : List ℚ) (i j : Nat) : Prop :=
  scores.getD i 0 < scores.getD j 0 ∨ (scores.getD i 0 = scores.getD j 0 ∧ i ≤ j)

instance (scores : List ℚ) : DecidableRel (argsortRel scores) := fun i j => by
  unfold argsortRel; infer_instance

/-- np.argsort followed by the [::-1] reversal of BM25.search. -/
def argsortDesc (scores : List ℚ) : List Nat :=
  (List.insertionSort (argsortRel scores) (List.range scores.length)).reverse

/-- The ranking loop of BM25.search on an already tokenized query: scores are
computed, batch-normalized, ranked descending, truncated to topK, and the
result loop keeps the positive-score entries (rank numbering from
enumerate starts before the positivity test, as in the source). -/
def searchCore (m : BM25) (qtoks : List Str) (topK : Nat) (filters : Option BmFilters) :
    List PyResult :=
  let scores := normalizeScores (rawScores m qtoks filters)
  let ranked := (argsortDesc scores).take topK
  ((ranked.enum.map (fun p => (p.1 + 1, p.2))).filter
      (fun p => decide (0 < scores.getD p.2 0))).map (fun p =>
    { text := some (m.corpus.getD p.2 [])
      score := scores.getD p.2 0
      metadata := some (m.corpusMetadata.getD p.2 default)
      rank := some p.1
      docIndex := some p.2 })

/-- BM25.search: empty index or token-free query give the empty list,
otherwise the ranking loop runs. -/
def BM25.search (m : BM25) (query : Str) (topK : Nat) (filters : Option BmFilters) :
    List PyResult :=
  if m.numDocs = 0 then []
  else
    let qtoks := tokenize query
    if qtoks.isEmpty then []
    else searchCore m qtoks topK filters

/-- The serialized index artifact of BM25.save_index: all nine state fields. -/
structure IndexData where
  k1 : ℚ
  b : ℚ
  corpus : List Str
  corpusMetadata : List Meta
  docFreqs : List (List (Str × Nat))
  idf : List (Str × ℚ)
  docLen : List Nat
  avgdl : ℚ
  numDocs : Nat
deriving DecidableEq, Repr

/-- BM25.save_index: the pickled dictionary (pickling these values is exact). -/
def BM25.saveIndex (m : BM25) : IndexData :=
  { k1 := m.k1
    b := m.b
    corpus := m.corpus
    corpusMetadata := m.corpusMetadata
    docFreqs := m.docFreqs
    idf := m.idf
    docLen := m.docLen
    avgdl := m.avgdl
    numDocs := m.numDocs }

/-- BM25.load_index: every state field of the instance is overwritten from the
artifact. -/
def BM25.loadIndex (_m : BM25) (d : IndexData) : BM25 :=
  { k1 := d.k1
    b := d.b
    corpus := d.corpus
    corpusMetadata := d.corpusMetadata
    docFreqs := d.docFreqs
    idf := d.idf
    docLen := d.docLen
    avgdl := d.avgdl
    numDocs := d.numDocs }

/-! ## Hybrid fusion (HybridSearchFusion.weighted_fusion) -/

/-- One value of the doc_scores dictionary built by weighted_fusion. -/
structure FusionEntry where
  result : PyResult
  bm25Score : ℚ
  semanticScore : ℚ
deriving DecidableEq, Repr, Inhabited

/-- The fusion key of a BM25 result: the chunk_id of its metadata, with the
text of the result as fallback.  The metadata [ ]-access presumes the field,
which BM25.search always populates; an absent field is modelled as the empty
dictionary. -/
def bmKey (r : PyResult) : Str :=
  ((r.metadata.getD default).chunkId).getD (r.text.getD [])

/-- The fusion key of a semantic result: the chunk_id of its payload, with the
text of the result as fallback (both reads carry Python defaults). -/
def semKey (r : PyResult) : Str :=
  ((r.payload.getD default).chunkId).getD (r.text.getD [])

/-- Dictionary assignment doc_scores[k] = v: overwrite in place, else append;
an overwritten key keeps its original insertion position. -/
def assocSet (k : Str) (v : FusionEntry) :
    List (Str × FusionEntry) → List (Str × FusionEntry)
  | [] => [(k, v)]
  | (k0, v0) :: rest =>
    if k0 = k then (k0, v) :: rest else (k0, v0) :: assocSet k v rest

/-- The semantic pass of weighted_fusion: update the semantic score of an
existing entry, else append a new entry with bm25 score 0. -/
def assocUpdateSem (k : Str) (score : ℚ) (r : PyResult) :
    List (Str × FusionEntry) → List (Str × FusionEntry)
  | [] => [(k, { result := r, bm25Score := 0, semanticScore := score })]
  | (k0, v0) :: rest =>
    if k0 = k then (k0, { v0 with semanticScore := score }) :: rest
    else (k0, v0) :: assocUpdateSem k score r rest

/-- The doc_scores dictionary of weighted_fusion after both input passes. -/
def fusionDocScores (bm sem : List PyResult) : List (Str × FusionEntry) :=
  let afterBm := bm.foldl (fun acc r =>
    assocSet (bmKey r) { result := r, bm25Score := r.score, semanticScore := 0 } acc) []
  sem.foldl (fun acc r => assocUpdateSem (semKey r) r.score r acc) afterBm

/-- The weighted final score of one fusion entry:
alpha * semantic + (1 - alpha) * bm25. -/
def fusionFinal (alpha : ℚ) (e : FusionEntry) : ℚ :=
  alpha * e.semanticScore + (1 - alpha) * e.bm25Score

/-- A fusion entry decorated with its dictionary position, for the stable
descending sort of weighted_fusion. -/
structure FuseItem where
  pos : Nat
  final : ℚ
  result : PyResult
deriving DecidableEq, Repr, Inhabited

/-- Descending order on final scores; the stable Python sort is modelled by
breaking ties by the dictionary insertion position. -/
def fuseRel (a b : FuseItem) : Prop :=
  b.final < a.final ∨ (a.final = b.final ∧ a.pos ≤ b.pos)

instance : DecidableRel fuseRel := fun a b => by unfold fuseRel; infer_instance

/-- HybridSearchFusion.weighted_fusion: build doc_scores from both result
lists, sort the values by the weighted final score descending, and return the
original result dictionaries (the fused score is not written back into them). -/
def weightedFusion (alpha : ℚ) (bm sem : List PyResult) : List PyResult :=
  let entries := fusionDocScores bm sem
  let items := entries.enum.map (fun p =>
    { pos := p.1, final := fusionFinal alpha p.2.2, result := p.2.2.result : FuseItem })
  (List.insertionSort fuseRel items).map (fun it => it.result)

/-! ## Cross-encoder re-ranker (backend/app/utils/reranker.py) -/

/-- The RankedResult dataclass of the reranker. -/
structure RankedResult where
  originalIndex : Nat
  text : Str
  biEncoderScore : ℚ
  crossEncoderScore : ℚ
  finalScore : ℚ
  metadata : PyResult
deriving DecidableEq, Repr, Inhabited

/-- Descending order on blended final scores; the stable Python sort is
modelled by breaking ties by original_index, which equals the pre-sort list
position in every list the code sorts. -/
def rerankRel (a b : RankedResult) : Prop :=
  b.finalScore < a.finalScore ∨ (a.finalScore = b.finalScore ∧ a.originalIndex ≤ b.originalIndex)

instance : DecidableRel rerankRel := fun a b => by unfold rerankRel; infer_instance

/-- The ranked results assembled in the success path of rerank: position i,
cross-encoder score squashed by the logistic, and the blend
0.7 * squashed + 0.3 * incoming score. -/
def rankedOfAux (sigmoid : ℚ → ℚ) : Nat → List (PyResult × ℚ) → List RankedResult
  | _, [] => []
  | i, (r, raw) :: rest =>
    { originalIndex := i
      text := r.text.getD []
      biEncoderScore := r.score
      crossEncoderScore := sigmoid raw
      finalScore := 7 / 10 * sigmoid raw + 3 / 10 * r.score
      metadata := r } :: rankedOfAux sigmoid (i + 1) rest

/-- The fallback results assembled in the exception path of rerank: the
incoming score becomes the final score and the cross-encoder score is 0. -/
def fallbackRankedAux : Nat → List PyResult → List RankedResult
  | _, [] => []
  | i, r :: rest =>
    { originalIndex := i
      text := r.text.getD []
      biEncoderScore := r.score
      crossEncoderScore := 0
      finalScore := r.score
      metadata := r } :: fallbackRankedAux (i + 1) rest

/-- CrossEncoderReranker.rerank.  The external batch scorer and the float
logistic are injected; a scorer failure takes the exception path, which sorts
the incoming results by their incoming score descending and truncates, never
raising. -/
def rerank (scorer : List (Str × Str) → Except Unit (List ℚ)) (sigmoid : ℚ → ℚ)
    (query : Str) (results : List PyResult) (topK : Nat) : List RankedResult :=
  if results.isEmpty then []
  else
    let pairs := results.map (fun r => (query, r.text.getD []))
    match scorer pairs with
    | .ok raws =>
      (List.insertionSort rerankRel (rankedOfAux sigmoid 0 (results.zip raws))).take topK
    | .error _ =>
      (List.insertionSort rerankRel (fallbackRankedAux 0 results)).take topK

/-! ## Retrieval orchestrator (backend/app/services/retrieval_service.py) -/

/-- The filter triple built by retrieve. -/
structure RetrievalFilters where
  category : Option (List Str) := none
  language : Option Str := none
  sourceType : Option Str := none
deriving DecidableEq, Repr

/-- The RetrievalResult record assembled by _format_results. -/
structure RetrievalResult where
  text : Str
  score : ℚ
  chunkId : Str
  sourceDocument : Str
  category : Str
  language : Option Str
  chunkIndex : Nat
  totalChunks : Nat
  sourceType : Str
  metadata : Meta
deriving DecidableEq, Repr

/-- The filters_applied record of the response. -/
structure FiltersApplied where
  category : Option (List Str)
  language : Option Str
  sourceType : Option Str
  minScore : ℚ
  rerankingEnabled : Bool
deriving DecidableEq, Repr

/-- The RetrievalResponse record assembled by retrieve (timing omitted). -/
structure RetrievalResponse where
  query : Str
  normalizedQuery : Str
  detectedLanguage : Option Str
  results : List RetrievalResult
  totalResults : Nat
  filtersApplied : FiltersApplied
deriving DecidableEq, Repr

/-- The error outcomes of retrieve: ValueError for an invalid query, and the
RuntimeError wrapper around any other pipeline exception. -/
inductive RetrievalError
  | invalidQuery
  | runtimeFailure
deriving DecidableEq, Repr

/-- RetrievalService._format_results: reads result["payload"] without a
default, so a payload-free result raises (modelled as error). -/
def formatResults : List PyResult → Except Unit (List RetrievalResult)
  | [] => .ok []
  | r :: rest =>
    match r.payload with
    | none => .error ()
    | some p =>
      match formatResults rest with
      | .error e => .error e
      | .ok tail =>
        .ok ({ text := p.text.getD []
               score := r.score
               chunkId := p.chunkId.getD []
               sourceDocument := p.sourceDocument.getD []
               category := p.category.getD []
               language := p.language
               chunkIndex := p.chunkIndex.getD 0
               totalChunks := p.totalChunks.getD 1
               sourceType := p.sourceType.getD []
               metadata := p } :: tail)

/-- The configuration snapshot a RetrievalService instance runs with. -/
structure ServiceConfig where
  rerankerEnabled : Bool
  hybridEnabled : Bool
  hybridAlpha : ℚ := 7 / 10
  rerankerTopK : Nat := 3
  retrievalTopK : Nat := 1
  retrievalMinScore : ℚ := 1 / 2
  maxQueryLength : Nat := 512
deriving DecidableEq, Repr

/-- The external embedding plus Qdrant vector search, combined: normalized
query text, top_k, filters and the optional score_threshold give a result
list.  Deterministic for fixed inputs. -/
abbrev VectorSearch := Str → Nat → RetrievalFilters → Option ℚ → List PyResult

/-- RetrievalService._search_vectors: min_score becomes the score_threshold
only when positive. -/
def searchVectors (vs : VectorSearch) (query : Str) (topK : Nat)
    (filters : RetrievalFilters) (minScore : ℚ) : List PyResult :=
  vs query topK filters (if 0 < minScore then some minScore else none)

/-- The bm25_filter_dict of _hybrid_search: category and language are added
only when truthy, and an empty dictionary is passed as None. -/
def toBmFilters (f : RetrievalFilters) : Option BmFilters :=
  let cat : Option (List Str) := match f.category with
    | some cs => if cs.isEmpty then none else some cs
    | none => none
  let lang : Option Str := match f.language with
    | some l => if l.isEmpty then none else some l
    | none => none
  if cat.isNone && lang.isNone then none
  else some { category := cat, language := lang }

/-- RetrievalService._hybrid_search: BM25 and semantic search each over-fetch
2x, weighted fusion, truncation to top_k. -/
def hybridSearch (bm25 : BM25) (vs : VectorSearch) (alpha : ℚ) (query : Str)
    (topK : Nat) (filters : RetrievalFilters) (minScore : ℚ) : List PyResult :=
  let bmResults := bm25.search query (topK * 2) (toBmFilters filters)
  let semResults := searchVectors vs query (topK * 2) filters minScore
  (weightedFusion alpha bmResults semResults).take topK

/-- RetrievalService.retrieve: normalization, language resolution, candidate
sizing, hybrid or semantic candidate fetch, optional re-ranking, formatting,
truncation to top_k, response assembly.  The falsy-default handling of top_k
follows the Python or-expression. -/
def retrieve (cfg : ServiceConfig) (vs : VectorSearch)
    (scorer : List (Str × Str) → Except Unit (List ℚ)) (sigmoid : ℚ → ℚ)
    (bm25 : BM25) (query : Str) (topKOpt : Option Nat) (category : Option (List Str))
    (languageOpt : Option Str) (sourceType : Option Str) (minScoreOpt : Option ℚ) :
    Except RetrievalError RetrievalResponse :=
  let topK := match topKOpt with
    | some k => if k = 0 then cfg.retrievalTopK else k
    | none => cfg.retrievalTopK
  let minScore := minScoreOpt.getD cfg.retrievalMinScore
  let candidateTopK := if cfg.rerankerEnabled then max (topK * 10) 15 else topK
  let rerankTopK := if cfg.rerankerEnabled then min topK cfg.rerankerTopK else 0
  match normalize cfg.maxQueryLength query with
  | .error _ => .error .invalidQuery
  | .ok nq =>
    let language : Option Str :=
      if (match languageOpt with | none => true | some l => l.isEmpty) then
        match nq.detectedLanguage with
        | some d => if d.isEmpty then languageOpt else some d
        | none => languageOpt
      else languageOpt
    let filters : RetrievalFilters :=
      { category := category, language := language, sourceType := sourceType }
    let searchResults :=
      if cfg.hybridEnabled then
        hybridSearch bm25 vs cfg.hybridAlpha nq.normalized candidateTopK filters minScore
      else
        searchVectors vs nq.normalized candidateTopK filters minScore
    let afterRerank :=
      if cfg.rerankerEnabled && !searchResults.isEmpty then
        (rerank scorer sigmoid nq.normalized searchResults rerankTopK).map (fun rr =>
          { rr.metadata with
            score := rr.finalScore
            originalScore := some rr.biEncoderScore
            crossEncoderScoreKey := some rr.crossEncoderScore })
      else searchResults
    match formatResults afterRerank with
    | .error _ => .error .runtimeFailure
    | .ok formatted =>
      .ok { query := query
            normalizedQuery := nq.normalized
            detectedLanguage := nq.detectedLanguage
            results := formatted.take topK
            totalResults := (formatted.take topK).length
            filtersApplied :=
              { category := category
                language := language
                sourceType := sourceType
                minScore := minScore
                rerankingEnabled := cfg.rerankerEnabled } }

/-! ## Theorems -/

/-- C6: saving a BM25 index and loading the artifact into a fresh instance
yields an index whose search results (ids, scores, order) are identical to the
original for every query, top_k and filter. -/
theorem bm25_save_load_search_roundtrip (m m0 : BM25) (query : Str) (topK : Nat)
    (filters : Option BmFilters) :
    (BM25.loadIndex m0 (BM25.saveIndex m)).search query topK filters =
      m.search query topK filters := rfl

/-- C10: on a non-empty index, a query all of whose whitespace-split tokens
have length at most 2 or consist only of digits is tokenized to nothing, and
search returns the empty list without raising. -/
theorem bm25_search_empty_on_dropped_tokens (m : BM25) (query : Str) (topK : Nat)
    (filters : Option BmFilters) (hdocs : 0 < m.numDocs)
    (hq : ∀ t ∈ preTokens query, t.length ≤ 2 ∨ t.all Char.isDigit = true) :
    m.search query topK filters = [] := by
  have htok : tokenize query = [] := by
    rw [tokenize, List.filter_eq_nil_iff]
    intro t ht
    rcases hq t ht with h | h
    · simp [Nat.not_lt.mpr h]
    · simp [h]
  unfold BM25.search
  rw [if_neg (by omega)]
  simp [htok]

/-- Witness for C10 at a concrete index and the concrete query "ab 12". -/
theorem bm25_search_empty_on_dropped_tokens_witness :
    0 < ({ numDocs := 1 : BM25 }).numDocs ∧
      ({ numDocs := 1 : BM25 }).search "ab 12".data 5 none = [] :=
  ⟨by decide, bm25_search_empty_on_dropped_tokens _ _ _ _ (by decide) (by decide)⟩

/-- Every element of the fallback list of rerank keeps the incoming score of
the input result at its original index and has cross-encoder score 0. -/
theorem fallbackRankedAux_spec (results : List PyResult) (i : Nat) (rr : RankedResult)
    (h : rr ∈ fallbackRankedAux i results) :
    rr.crossEncoderScore = 0 ∧ rr.finalScore = rr.biEncoderScore ∧
    i ≤ rr.originalIndex ∧ rr.originalIndex - i < results.length ∧
    rr.biEncoderScore = (results.getD (rr.originalIndex - i) default).score := by
  induction results generalizing i with
  | nil => simp [fallbackRankedAux] at h
  | cons r rest ih =>
    rw [fallbackRankedAux] at h
    rcases List.mem_cons.mp h with h0 | h1
    · subst h0
      refine ⟨rfl, rfl, Nat.le_refl _, by simp, by simp⟩
    · obtain ⟨hc, hf, hle, hlt, hsc⟩ := ih (i + 1) h1
      refine ⟨hc, hf, by omega, by simp only [List.length_cons]; omega, ?_⟩
      have hidx : rr.originalIndex - i = (rr.originalIndex - (i + 1)) + 1 := by omega
      rw [hidx, List.getD_cons_succ]
      exact hsc

/-- C2 (amended): when the injected scorer fails on the formed pairs, rerank
does not raise; it returns the candidates re-sorted descending by their
incoming score (ties keeping incoming order) and truncated to top_k, each
candidate keeping its incoming score as final score and cross-encoder score 0. -/
theorem rerank_scorer_failure_fallback
    (scorer : List (Str × Str) → Except Unit (List ℚ)) (sigmoid : ℚ → ℚ)
    (query : Str) (results : List PyResult) (topK : Nat)
    (hfail : scorer (results.map (fun r => (query, r.text.getD []))) = .error ())
    (hne : results ≠ []) :
    rerank scorer sigmoid query results topK =
      (List.insertionSort rerankRel (fallbackRankedAux 0 results)).take topK ∧
    ∀ rr ∈ rerank scorer sigmoid query results topK,
      rr.crossEncoderScore = 0 ∧ rr.finalScore = rr.biEncoderScore ∧
      rr.originalIndex < results.length ∧
      rr.biEncoderScore = (results.getD rr.originalIndex default).score := by
  have heq : rerank scorer sigmoid query results topK =
      (List.insertionSort rerankRel (fallbackRankedAux 0 results)).take topK := by
    rw [rerank, if_neg (by simpa using hne)]
    dsimp only
    rw [hfail]
  refine ⟨heq, ?_⟩
  intro rr hrr
  rw [heq] at hrr
  have h1 : rr ∈ List.insertionSort rerankRel (fallbackRankedAux 0 results) :=
    List.take_subset _ _ hrr
  have h2 : rr ∈ fallbackRankedAux 0 results := (List.mem_insertionSort _).mp h1
  obtain ⟨hc, hf, _, hlt, hsc⟩ := fallbackRankedAux_spec results 0 rr h2
  refine ⟨hc, hf, by simpa using hlt, by simpa using hsc⟩

/-- Witness for C2 at a concrete failing scorer and two candidates. -/
theorem rerank_scorer_failure_fallback_witness :
    rerank (fun _ => .error ()) (fun x => x) "q".data
        [({ score := 1 / 10 } : PyResult), { score := 9 / 10 }] 5 =
      (List.insertionSort rerankRel (fallbackRankedAux 0
        [({ score := 1 / 10 } : PyResult), { score := 9 / 10 }])).take 5 :=
  (rerank_scorer_failure_fallback _ _ _ _ _ (by rfl) (by decide)).1

/-- Counterexample to C2 as stated: with every scorer call failing, the
candidates with incoming scores 0.1 then 0.9 come back in the order
0.9 then 0.1 - not in their incoming order. -/
theorem rerank_fallback_not_incoming_order :
    (rerank (fun _ => .error ()) (fun x => x) "q".data
        [({ score := 1 / 10 } : PyResult), { score := 9 / 10 }] 5).map
      (fun rr => (rr.originalIndex, rr.finalScore)) =
      [(1, 9 / 10), (0, 1 / 10)] := by with_unfolding_all decide

/-- C5 (amended): with a non-zero maximum indicator count, the detector does
not consult the diacritic fallback on ties; German wins any tie it is part of,
English beats French on their ties, and a language with the strict maximum
wins. -/
theorem detectLanguage_nonzero_tie_uses_priority (text : Str) :
    (indicatorCount englishIndicators text ≤ indicatorCount germanIndicators text →
      indicatorCount frenchIndicators text ≤ indicatorCount germanIndicators text →
      0 < indicatorCount germanIndicators text →
      detectLanguage text = some "DE".data) ∧
    (indicatorCount germanIndicators text < indicatorCount englishIndicators text →
      indicatorCount frenchIndicators text ≤ indicatorCount englishIndicators text →
      detectLanguage text = some "EN".data) ∧
    (indicatorCount germanIndicators text < indicatorCount frenchIndicators text →
      indicatorCount englishIndicators text < indicatorCount frenchIndicators text →
      detectLanguage text = some "FR".data) := by
  refine ⟨fun h1 h2 h3 => ?_, fun h1 h2 => ?_, fun h1 h2 => ?_⟩ <;>
    unfold detectLanguage <;> dsimp only
  · have hmax : max (indicatorCount germanIndicators text)
        (max (indicatorCount englishIndicators text)
          (indicatorCount frenchIndicators text)) =
        indicatorCount germanIndicators text := by omega
    rw [hmax, if_neg (by omega), if_pos rfl]
  · have hmax : max (indicatorCount germanIndicators text)
        (max (indicatorCount englishIndicators text)
          (indicatorCount frenchIndicators text)) =
        indicatorCount englishIndicators text := by omega
    rw [hmax, if_neg (by omega), if_neg (by omega), if_pos rfl]
  · have hmax : max (indicatorCount germanIndicators text)
        (max (indicatorCount englishIndicators text)
          (indicatorCount frenchIndicators text)) =
        indicatorCount frenchIndicators text := by omega
    rw [hmax, if_neg (by omega), if_neg (by omega), if_neg (by omega), if_pos rfl]

/-- Witness for C5 on the tie query "der the". -/
theorem detectLanguage_nonzero_tie_uses_priority_witness :
    detectLanguage "der the".data = some "DE".data :=
  (detectLanguage_nonzero_tie_uses_priority ("der the".data)).1
    (by decide) (by decide) (by decide)

/-- Counterexample to C5 as stated: on "der the" the German and English
intersections tie at 1 and no diacritic is present, yet the detector returns
DE instead of falling through to unknown. -/
theorem detectLanguage_tie_counterexample :
    detectLanguage "der the".data = some "DE".data ∧
    indicatorCount germanIndicators "der the".data = 1 ∧
    indicatorCount englishIndicators "der the".data = 1 ∧
    hasUmlaut "der the".data = false ∧
    hasFrenchAccent "der the".data = false := by decide

instance argsortRelIsTotal (scores : List ℚ) : IsTotal Nat (argsortRel scores) := by
  constructor
  intro i j
  unfold argsortRel
  rcases lt_trichotomy (scores.getD i 0) (scores.getD j 0) with h | h | h
  · exact Or.inl (Or.inl h)
  · rcases Nat.le_total i j with hij | hij
    · exact Or.inl (Or.inr ⟨h, hij⟩)
    · exact Or.inr (Or.inr ⟨h.symm, hij⟩)
  · exact Or.inr (Or.inl h)

instance argsortRelIsTrans (scores : List ℚ) : IsTrans Nat (argsortRel scores) := by
  constructor
  intro a b c hab hbc
  unfold argsortRel at hab hbc ⊢
  rcases hab with h1 | ⟨he1, hle1⟩
  · rcases hbc with h2 | ⟨he2, _⟩
    · exact Or.inl (h1.trans h2)
    · exact Or.inl (h1.trans_eq he2)
  · rcases hbc with h2 | ⟨he2, hle2⟩
    · exact Or.inl (he1.trans_lt h2)
    · exact Or.inr ⟨he1.trans he2, hle1.trans hle2⟩

/-- The ranking loop returns at most topK results, every returned score is
positive, and the output is ordered descending by score with equal scores
ordered by descending document index. -/
theorem searchCore_spec (m : BM25) (qtoks : List Str) (topK : Nat)
    (filters : Option BmFilters) :
    (searchCore m qtoks topK filters).length ≤ topK ∧
    (∀ r ∈ searchCore m qtoks topK filters, 0 < r.score) ∧
    (searchCore m qtoks topK filters).Pairwise (fun a b =>
      b.score < a.score ∨ (a.score = b.score ∧ b.docIndex.getD 0 < a.docIndex.getD 0)) := by
  unfold searchCore
  dsimp only
  set scores := normalizeScores (rawScores m qtoks filters) with hscores
  refine ⟨?_, ?_, ?_⟩
  · rw [List.length_map]
    calc (List.filter _ (List.map _ (List.enum ((argsortDesc scores).take topK)))).length
        ≤ (List.map _ (List.enum ((argsortDesc scores).take topK))).length :=
          List.length_filter_le _ _
      _ = (List.enum ((argsortDesc scores).take topK)).length := List.length_map _ _
      _ = ((argsortDesc scores).take topK).length := List.enum_length
      _ ≤ topK := List.length_take_le _ _
  · intro r hr
    obtain ⟨p, hp, hpr⟩ := List.mem_map.mp hr
    have hpos := (List.mem_filter.mp hp).2
    rw [← hpr]
    simpa using of_decide_eq_true hpos
  · have h1 : (List.insertionSort (argsortRel scores)
        (List.range scores.length)).Pairwise (argsortRel scores) :=
      List.sorted_insertionSort _ _
    have hnd : (List.insertionSort (argsortRel scores)
        (List.range scores.length)).Nodup :=
      (List.perm_insertionSort _ _).nodup_iff.mpr (List.nodup_range _)
    have h2 : (argsortDesc scores).Pairwise (fun i j => argsortRel scores j i) := by
      rw [argsortDesc]
      exact List.pairwise_reverse.mpr h1
    have hndrev : (argsortDesc scores).Nodup := by
      rw [argsortDesc]
      exact List.nodup_reverse.mpr hnd
    have h3 : ((argsortDesc scores).take topK).Pairwise
        (fun i j => argsortRel scores j i ∧ i ≠ j) :=
      List.Pairwise.sublist (List.take_sublist _ _) (h2.and hndrev)
    have h4 : (((argsortDesc scores).take topK).enum.map
        (fun p => (p.1 + 1, p.2))).Pairwise
        (fun p q => argsortRel scores q.2 p.2 ∧ p.2 ≠ q.2) := by
      rw [List.pairwise_map]
      have h5 : ((argsortDesc scores).take topK).enum.Pairwise
          (fun p q => argsortRel scores q.2 p.2 ∧ p.2 ≠ q.2) := by
        have h3m := h3
        rw [← List.enum_map_snd ((argsortDesc scores).take topK)] at h3m
        exact List.pairwise_map.mp h3m
      exact h5.imp (fun h => h)
    have h6 := h4.filter (fun p => decide (0 < scores.getD p.2 0))
    rw [List.pairwise_map]
    refine h6.imp ?_
    intro p q hpq
    obtain ⟨hrel, hne⟩ := hpq
    rcases hrel with hlt | ⟨heq, hle⟩
    · exact Or.inl hlt
    · exact Or.inr ⟨heq.symm, by
        simpa using Nat.lt_of_le_of_ne hle (fun h => hne h.symm)⟩

/-- C4 (amended): BM25 search output is sorted descending by normalized score
and truncated to top_k with only positive scores kept; equal scores appear in
reverse corpus insertion order (the argsort result is reversed), not in
insertion order. -/
theorem bm25_search_ranked_output (m : BM25) (query : Str) (topK : Nat)
    (filters : Option BmFilters) :
    (m.search query topK filters).length ≤ topK ∧
    (∀ r ∈ m.search query topK filters, 0 < r.score) ∧
    (m.search query topK filters).Pairwise (fun a b =>
      b.score < a.score ∨ (a.score = b.score ∧ b.docIndex.getD 0 < a.docIndex.getD 0)) := by
  rw [BM25.search]
  by_cases h0 : m.numDocs = 0
  · rw [if_pos h0]
    exact ⟨by simp, by simp, by simp⟩
  rw [if_neg h0]
  dsimp only
  by_cases hq : (tokenize query).isEmpty
  · rw [if_pos hq]
    exact ⟨by simp, by simp, by simp⟩
  rw [if_neg hq]
  exact searchCore_spec m (tokenize query) topK filters

/-- Counterexample to C4 as stated: two identical documents tie with
normalized score 1, and the search returns document 1 before document 0 -
reverse corpus insertion order, not insertion order. -/
theorem bm25_search_tie_reversed_counterexample :
    ((BM25.indexCorpus (fun x => x - 1) {} ["foo bar".data, "foo bar".data]
        [{}, {}]).map
      (fun m => (m.search "foo".data 10 none).map (fun r => (r.docIndex, r.score)))) =
      some [(some 1, 1), (some 0, 1)] := by with_unfolding_all decide

/-- Every element of the success-path ranked list carries the logistic of the
raw score and the blend 0.7 * squashed + 0.3 * incoming of the pair at its
original index. -/
theorem rankedOfAux_spec (sigmoid : ℚ → ℚ) (ps : List (PyResult × ℚ)) (i : Nat)
    (rr : RankedResult) (h : rr ∈ rankedOfAux sigmoid i ps) :
    i ≤ rr.originalIndex ∧ rr.originalIndex - i < ps.length ∧
    rr.metadata = (ps.getD (rr.originalIndex - i) default).1 ∧
    rr.crossEncoderScore = sigmoid (ps.getD (rr.originalIndex - i) default).2 ∧
    rr.biEncoderScore = (ps.getD (rr.originalIndex - i) default).1.score ∧
    rr.finalScore = 7 / 10 * rr.crossEncoderScore + 3 / 10 * rr.biEncoderScore := by
  induction ps generalizing i with
  | nil => simp [rankedOfAux] at h
  | cons pr rest ih =>
    obtain ⟨r, raw⟩ := pr
    rw [rankedOfAux] at h
    rcases List.mem_cons.mp h with h0 | h1
    · subst h0
      exact ⟨Nat.le_refl _, by simp, by simp, by simp, by simp, rfl⟩
    · obtain ⟨hle, hlt, hmd, hcs, hbi, hfs⟩ := ih (i + 1) h1
      have hidx : rr.originalIndex - i = (rr.originalIndex - (i + 1)) + 1 := by omega
      refine ⟨by omega, by simp only [List.length_cons]; omega, ?_, ?_, ?_, hfs⟩ <;>
        rw [hidx, List.getD_cons_succ]
      · exact hmd
      · exact hcs
      · exact hbi

/-- getD on a zip is the pair of the getD values inside the common length. -/
theorem zip_getD (l1 : List PyResult) (l2 : List ℚ) (j : Nat)
    (h : j < (l1.zip l2).length) :
    (l1.zip l2).getD j default = (l1.getD j default, l2.getD j 0) := by
  induction l1 generalizing l2 j with
  | nil => simp at h
  | cons a l ih =>
    cases l2 with
    | nil => simp at h
    | cons b l2t =>
      cases j with
      | zero => simp
      | succ j =>
        simp only [List.zip_cons_cons, List.getD_cons_succ]
        exact ih l2t j (by simpa using h)

/-- C3 (amended): on a successful scorer call, every re-ranked candidate has
final score 0.7 * logistic(raw score at its index) + 0.3 * the score field the
candidate carried in.  In hybrid mode that field is the original per-source
score of the result dictionary, because weighted fusion returns the original
dictionaries without writing the fused score back. -/
theorem rerank_blend_uses_carried_score
    (scorer : List (Str × Str) → Except Unit (List ℚ)) (sigmoid : ℚ → ℚ)
    (query : Str) (results : List PyResult) (topK : Nat) (raws : List ℚ)
    (hok : scorer (results.map (fun r => (query, r.text.getD []))) = .ok raws) :
    ∀ rr ∈ rerank scorer sigmoid query results topK,
      rr.crossEncoderScore = sigmoid (raws.getD rr.originalIndex 0) ∧
      rr.finalScore = 7 / 10 * sigmoid (raws.getD rr.originalIndex 0) +
        3 / 10 * (results.getD rr.originalIndex default).score := by
  intro rr hrr
  rw [rerank] at hrr
  by_cases hne : results.isEmpty
  · rw [if_pos hne] at hrr
    simp at hrr
  rw [if_neg hne] at hrr
  dsimp only at hrr
  rw [hok] at hrr
  have h1 : rr ∈ rankedOfAux sigmoid 0 (results.zip raws) :=
    (List.mem_insertionSort _).mp (List.take_subset _ _ hrr)
  obtain ⟨_, hlt, _, hcs, hbi, hfs⟩ := rankedOfAux_spec sigmoid _ 0 rr h1
  rw [Nat.sub_zero] at hlt hcs hbi
  rw [zip_getD results raws rr.originalIndex hlt] at hcs hbi
  have hidx : rr.originalIndex < results.length := by
    have := hlt
    rw [List.length_zip] at this
    omega
  exact ⟨hcs, by rw [hfs, hcs, hbi]⟩

/-- Witness for C3 at one candidate with incoming score 3/5 and raw
cross-encoder score 2 under the identity squash. -/
theorem rerank_blend_uses_carried_score_witness :
    ({ originalIndex := 0, text := [], biEncoderScore := 3 / 5, crossEncoderScore := 2,
        finalScore := 79 / 50, metadata := { score := 3 / 5 } } :
        RankedResult).crossEncoderScore =
      (fun x : ℚ => x) ([(2 : ℚ)].getD 0 0) ∧
    ({ originalIndex := 0, text := [], biEncoderScore := 3 / 5, crossEncoderScore := 2,
        finalScore := 79 / 50, metadata := { score := 3 / 5 } } :
        RankedResult).finalScore =
      7 / 10 * (fun x : ℚ => x) ([(2 : ℚ)].getD 0 0) +
        3 / 10 * ([({ score := 3 / 5 } : PyResult)].getD 0 default).score :=
  rerank_blend_uses_carried_score (fun ps => .ok (ps.map (fun _ => (2 : ℚ))))
    (fun x => x) "q".data [{ score := 3 / 5 }] 3 [2] rfl _
    (by with_unfolding_all decide)

/-- Counterexample to C3 as stated: a chunk present in both hybrid lists
(bm25 score 1, semantic score 1/4) has weighted-fusion score 19/40, yet its
re-ranked final score is 0.7 * logistic + 0.3 * 1 = 13/20, computed from the
bm25 score it carried in, not from the fused score. -/
theorem rerank_blend_fused_score_counterexample :
    (rerank (fun ps => .ok (ps.map (fun _ => (0 : ℚ)))) (fun _ => 1 / 2) "q".data
        (weightedFusion (7 / 10)
          [({ score := 1, metadata := some { chunkId := some "c1".data },
              text := some "t1".data } : PyResult)]
          [({ score := 1 / 4, payload := some { chunkId := some "c1".data } } :
              PyResult)]) 3).map
      (fun rr => rr.finalScore) = [13 / 20] ∧
    (fusionDocScores
        [({ score := 1, metadata := some { chunkId := some "c1".data },
            text := some "t1".data } : PyResult)]
        [({ score := 1 / 4, payload := some { chunkId := some "c1".data } } :
            PyResult)]).map
      (fun p => fusionFinal (7 / 10) p.2) = [19 / 40] ∧
    (13 / 20 : ℚ) ≠ 7 / 10 * (1 / 2) + 3 / 10 * (19 / 40) := by
  with_unfolding_all decide

/-- Membership in a dictionary after an assignment: either an old pair, or a
pair carrying the assigned value. -/
theorem mem_assocSet {k : Str} {v : FusionEntry} {acc : List (Str × FusionEntry)}
    {p : Str × FusionEntry} (h : p ∈ assocSet k v acc) :
    p ∈ acc ∨ p.2 = v := by
  induction acc with
  | nil =>
    rw [assocSet] at h
    rcases List.mem_singleton.mp h with rfl
    exact Or.inr rfl
  | cons q rest ih =>
    obtain ⟨k0, v0⟩ := q
    rw [assocSet] at h
    by_cases hk : k0 = k
    · rw [if_pos hk] at h
      rcases List.mem_cons.mp h with h0 | h1
      · exact Or.inr (by rw [h0])
      · exact Or.inl (List.mem_cons_of_mem _ h1)
    · rw [if_neg hk] at h
      rcases List.mem_cons.mp h with h0 | h1
      · exact Or.inl (by rw [h0]; exact List.mem_cons_self _ _)
      · rcases ih h1 with hm | hv
        · exact Or.inl (List.mem_cons_of_mem _ hm)
        · exact Or.inr hv

/-- Membership after the semantic update pass: an untouched old pair, an old
pair with its semantic score replaced, or the freshly appended entry. -/
theorem mem_assocUpdateSem {k : Str} {s : ℚ} {r : PyResult}
    {acc : List (Str × FusionEntry)} {p : Str × FusionEntry}
    (h : p ∈ assocUpdateSem k s r acc) :
    p ∈ acc ∨ (∃ q ∈ acc, p.2 = { q.2 with semanticScore := s }) ∨
      p.2 = { result := r, bm25Score := 0, semanticScore := s } := by
  induction acc with
  | nil =>
    rw [assocUpdateSem] at h
    rcases List.mem_singleton.mp h with rfl
    exact Or.inr (Or.inr rfl)
  | cons q rest ih =>
    obtain ⟨k0, v0⟩ := q
    rw [assocUpdateSem] at h
    by_cases hk : k0 = k
    · rw [if_pos hk] at h
      rcases List.mem_cons.mp h with h0 | h1
      · exact Or.inr (Or.inl ⟨(k0, v0), List.mem_cons_self _ _, by rw [h0]⟩)
      · exact Or.inl (List.mem_cons_of_mem _ h1)
    · rw [if_neg hk] at h
      rcases List.mem_cons.mp h with h0 | h1
      · exact Or.inl (by rw [h0]; exact List.mem_cons_self _ _)
      · rcases ih h1 with hm | ⟨q0, hq0, hv⟩ | hv
        · exact Or.inl (List.mem_cons_of_mem _ hm)
        · exact Or.inr (Or.inl ⟨q0, List.mem_cons_of_mem _ hq0, hv⟩)
        · exact Or.inr (Or.inr hv)

/-- Every entry of doc_scores carries a bm25 score that is 0 or one of the
bm25 input scores, and a semantic score that is 0 or one of the semantic
input scores. -/
theorem fusionDocScores_entry_sources (bm sem : List PyResult) :
    ∀ p ∈ fusionDocScores bm sem,
      (p.2.bm25Score = 0 ∨ ∃ r ∈ bm, p.2.bm25Score = r.score) ∧
      (p.2.semanticScore = 0 ∨ ∃ r ∈ sem, p.2.semanticScore = r.score) := by
  have hbmStep : ∀ (l : List PyResult) (acc : List (Str × FusionEntry)),
      (∀ r ∈ l, r ∈ bm) →
      (∀ p ∈ acc, (p.2.bm25Score = 0 ∨ ∃ r ∈ bm, p.2.bm25Score = r.score) ∧
        p.2.semanticScore = 0) →
      ∀ p ∈ l.foldl (fun acc r =>
          assocSet (bmKey r) { result := r, bm25Score := r.score, semanticScore := 0 } acc)
        acc,
        (p.2.bm25Score = 0 ∨ ∃ r ∈ bm, p.2.bm25Score = r.score) ∧
          p.2.semanticScore = 0 := by
    intro l
    induction l with
    | nil => intro acc _ hacc; simpa using hacc
    | cons r rest ih =>
      intro acc hsub hacc
      rw [List.foldl_cons]
      refine ih _ (fun x hx => hsub x (List.mem_cons_of_mem _ hx)) ?_
      intro q hq
      rcases mem_assocSet hq with hm | hv
      · exact hacc q hm
      · rw [hv]
        exact ⟨Or.inr ⟨r, hsub r (List.mem_cons_self _ _), rfl⟩, rfl⟩
  have hsemStep : ∀ (l : List PyResult) (acc : List (Str × FusionEntry)),
      (∀ r ∈ l, r ∈ sem) →
      (∀ p ∈ acc, (p.2.bm25Score = 0 ∨ ∃ r ∈ bm, p.2.bm25Score = r.score) ∧
        (p.2.semanticScore = 0 ∨ ∃ r ∈ sem, p.2.semanticScore = r.score)) →
      ∀ p ∈ l.foldl (fun acc r => assocUpdateSem (semKey r) r.score r acc) acc,
        (p.2.bm25Score = 0 ∨ ∃ r ∈ bm, p.2.bm25Score = r.score) ∧
        (p.2.semanticScore = 0 ∨ ∃ r ∈ sem, p.2.semanticScore = r.score) := by
    intro l
    induction l with
    | nil => intro acc _ hacc; simpa using hacc
    | cons r rest ih =>
      intro acc hsub hacc
      rw [List.foldl_cons]
      refine ih _ (fun x hx => hsub x (List.mem_cons_of_mem _ hx)) ?_
      intro q hq
      rcases mem_assocUpdateSem hq with hm | ⟨q0, hq0, hv⟩ | hv
      · exact hacc q hm
      · rw [hv]
        exact ⟨(hacc q0 hq0).1,
          Or.inr ⟨r, hsub r (List.mem_cons_self _ _), rfl⟩⟩
      · rw [hv]
        exact ⟨Or.inl rfl, Or.inr ⟨r, hsub r (List.mem_cons_self _ _), rfl⟩⟩
  intro p hp
  rw [fusionDocScores] at hp
  exact hsemStep sem _ (fun r hr => hr)
    (fun q hq => ⟨(hbmStep bm [] (fun r hr => hr) (by simp) q hq).1,
      Or.inl (hbmStep bm [] (fun r hr => hr) (by simp) q hq).2⟩) p hp

/-- C8: with alpha in [0,1] and every input score of both lists in [0,1],
every weighted fusion final score alpha * semantic + (1 - alpha) * bm25 lies
in [0,1]. -/
theorem weighted_fusion_scores_in_range (alpha : ℚ) (bm sem : List PyResult)
    (ha0 : 0 ≤ alpha) (ha1 : alpha ≤ 1)
    (hbm : ∀ r ∈ bm, 0 ≤ r.score ∧ r.score ≤ 1)
    (hsem : ∀ r ∈ sem, 0 ≤ r.score ∧ r.score ≤ 1) :
    ∀ p ∈ fusionDocScores bm sem,
      0 ≤ fusionFinal alpha p.2 ∧ fusionFinal alpha p.2 ≤ 1 := by
  intro p hp
  obtain ⟨hb, hs⟩ := fusionDocScores_entry_sources bm sem p hp
  have hb01 : 0 ≤ p.2.bm25Score ∧ p.2.bm25Score ≤ 1 := by
    rcases hb with h0 | ⟨r, hr, hsc⟩
    · rw [h0]; exact ⟨le_refl 0, by norm_num⟩
    · rw [hsc]; exact hbm r hr
  have hs01 : 0 ≤ p.2.semanticScore ∧ p.2.semanticScore ≤ 1 := by
    rcases hs with h0 | ⟨r, hr, hsc⟩
    · rw [h0]; exact ⟨le_refl 0, by norm_num⟩
    · rw [hsc]; exact hsem r hr
  rw [fusionFinal]
  constructor
  · have h1 : 0 ≤ alpha * p.2.semanticScore := mul_nonneg ha0 hs01.1
    have h2 : 0 ≤ (1 - alpha) * p.2.bm25Score :=
      mul_nonneg (by linarith) hb01.1
    linarith
  · nlinarith [hb01.1, hb01.2, hs01.1, hs01.2]

/-- Witness for C8 at alpha = 7/10 with one chunk scored by both sources. -/
theorem weighted_fusion_scores_in_range_witness :
    0 ≤ fusionFinal (7 / 10)
        ({ result := { score := 1 / 2, metadata := some { chunkId := some "c".data } },
           bm25Score := 1 / 2, semanticScore := 1 / 4 } : FusionEntry) ∧
    fusionFinal (7 / 10)
        ({ result := { score := 1 / 2, metadata := some { chunkId := some "c".data } },
           bm25Score := 1 / 2, semanticScore := 1 / 4 } : FusionEntry) ≤ 1 :=
  weighted_fusion_scores_in_range (7 / 10)
    [{ score := 1 / 2, metadata := some { chunkId := some "c".data } }]
    [{ score := 1 / 4, payload := some { chunkId := some "c".data } }]
    (by norm_num) (by norm_num)
    (by intro r hr; rcases List.mem_singleton.mp hr with rfl; norm_num)
    (by intro r hr; rcases List.mem_singleton.mp hr with rfl; norm_num)
    ("c".data,
      { result := { score := 1 / 2, metadata := some { chunkId := some "c".data } },
        bm25Score := 1 / 2, semanticScore := 1 / 4 })
    (by with_unfolding_all decide)

instance exceptDecEq {ε α : Type} [DecidableEq ε] [DecidableEq α] :
    DecidableEq (Except ε α) := fun a b =>
  match a, b with
  | .ok x, .ok y =>
    if h : x = y then isTrue (congrArg Except.ok h)
    else isFalse (fun hc => h (Except.ok.inj hc))
  | .error x, .error y =>
    if h : x = y then isTrue (congrArg Except.error h)
    else isFalse (fun hc => h (Except.error.inj hc))
  | .ok _, .error _ => isFalse (fun hc => Except.noConfusion hc)
  | .error _, .ok _ => isFalse (fun hc => Except.noConfusion hc)

/-- C9: a hybrid retrieval in which a candidate found only by the keyword
index survives fusion into the formatting step makes retrieve raise: the
bm25 dictionaries carry no payload key and _format_results reads it
unconditionally, so the pipeline ends in the RuntimeError wrapper instead of
returning that candidate. -/
theorem retrieve_keyword_candidate_payload_error :
    ((BM25.indexCorpus (fun x => x - 1) {}
        ["osteopathy joint pain".data] [{ chunkId := some "d1".data }]).map
      (fun m =>
        retrieve { rerankerEnabled := false, hybridEnabled := true }
          (fun _ _ _ _ => []) (fun _ => .error ()) (fun x => x) m
          "joint pain".data (some 3) none none none (some 0))) =
      some (.error .runtimeFailure) := by with_unfolding_all decide

/-- Scores survive formatting: every formatted result keeps the score of one
of the incoming result dictionaries. -/
theorem formatResults_ok_scores (l : List PyResult) (out : List RetrievalResult)
    (h : formatResults l = .ok out) :
    ∀ x ∈ out, ∃ r ∈ l, x.score = r.score := by
  induction l generalizing out with
  | nil =>
    rw [formatResults] at h
    injection h with h
    subst h
    intro x hx
    simp at hx
  | cons r rest ih =>
    rw [formatResults] at h
    cases hp : r.payload with
    | none => rw [hp] at h; cases h
    | some p =>
      rw [hp] at h
      cases hrec : formatResults rest with
      | error e => rw [hrec] at h; cases h
      | ok tail =>
        rw [hrec] at h
        injection h with h
        intro x hx
        rw [← h] at hx
        rcases List.mem_cons.mp hx with h0 | h1
        · exact ⟨r, List.mem_cons_self _ _, by rw [h0]⟩
        · obtain ⟨r0, hr0, hsc⟩ := ih tail hrec x h1
          exact ⟨r0, List.mem_cons_of_mem _ hr0, hsc⟩

/-- C1 (amended): min_score acts before re-ranking, as the score_threshold of
the semantic vector search.  With re-ranking and hybrid search disabled and a
vector search that honors its threshold, every returned score meets min_score;
the counterexample shows no such filter runs after re-ranking. -/
theorem retrieve_minscore_is_prerank_threshold
    (cfg : ServiceConfig) (vs : VectorSearch)
    (scorer : List (Str × Str) → Except Unit (List ℚ)) (sigmoid : ℚ → ℚ)
    (bm25 : BM25) (query : Str) (topKOpt : Option Nat)
    (category : Option (List Str)) (languageOpt : Option Str)
    (sourceType : Option Str) (minScore : ℚ)
    (hvs : ∀ q k f t r, r ∈ vs q k f (some t) → t ≤ r.score)
    (hre : cfg.rerankerEnabled = false)
    (hhy : cfg.hybridEnabled = false)
    (hpos : 0 < minScore) :
    ∀ x ∈ (match retrieve cfg vs scorer sigmoid bm25 query topKOpt category
        languageOpt sourceType (some minScore) with
      | .ok resp => resp.results
      | .error _ => []),
      minScore ≤ x.score := by
  intro x hx
  rw [retrieve.eq_def] at hx
  cases hnq : normalize cfg.maxQueryLength query with
  | error e =>
    rw [hnq] at hx
    simp at hx
  | ok nq =>
    rw [hnq] at hx
    rw [hre, hhy] at hx
    simp only [Bool.false_and, Option.getD_some, Bool.false_eq_true, if_false,
      searchVectors, if_pos hpos] at hx
    split at hx
    · rename_i resp heq
      split at heq
      · rename_i e hfmt
        cases heq
      · rename_i formatted hfmt
        injection heq with heq
        subst heq
        dsimp only at hx
        obtain ⟨r, hr, hsc⟩ := formatResults_ok_scores _ _ hfmt x
          (List.take_subset _ _ hx)
        rw [hsc]
        exact hvs _ _ _ _ _ hr
    · rename_i e heq
      simp at hx

/-- Witness for C1 at a threshold-honoring vector search returning score 3/4
against min_score 1/2. -/
theorem retrieve_minscore_is_prerank_threshold_witness :
    (1 / 2 : ℚ) ≤ ({ text := []
                     score := 3 / 4
                     chunkId := []
                     sourceDocument := []
                     category := []
                     language := none
                     chunkIndex := 0
                     totalChunks := 1
                     sourceType := []
                     metadata := {} } : RetrievalResult).score :=
  retrieve_minscore_is_prerank_threshold
    { rerankerEnabled := false, hybridEnabled := false }
    (fun _ _ _ t => if t.getD 0 ≤ (3 / 4 : ℚ) then
        [{ score := 3 / 4, payload := some {} }] else [])
    (fun _ => .error ()) (fun x => x) {} "hello there".data (some 1) none none none
    (1 / 2)
    (by
      intro q k f t r hr
      simp only [Option.getD_some] at hr
      by_cases h : t ≤ (3 / 4 : ℚ)
      · rw [if_pos h] at hr
        rcases List.mem_singleton.mp hr with rfl
        simpa using h
      · rw [if_neg h] at hr
        simp at hr)
    rfl rfl (by norm_num) _ (by with_unfolding_all decide)

/-- Counterexample to C1 as stated: with re-ranking enabled and min_score 1/2,
a semantic candidate of score 3/5 (admitted by the pre-rerank threshold) is
blended down to 1/4 by the cross-encoder and still returned - the final
response contains a result below min_score. -/
theorem retrieve_minscore_post_rerank_counterexample :
    (match retrieve { rerankerEnabled := true, hybridEnabled := false }
        (fun _ _ _ _ =>
          [({ score := 3 / 5, payload := some { chunkId := some "c1".data } } :
            PyResult)])
        (fun ps => .ok (ps.map (fun _ => (-2 : ℚ)))) (fun _ => 1 / 10) {}
        "what is osteopathy".data (some 1) none none none (some (1 / 2)) with
      | .ok resp => resp.results.map (fun r => r.score)
      | .error _ => []) = [1 / 4] ∧ (1 / 4 : ℚ) < 1 / 2 := by
  with_unfolding_all decide

/-- Adjacent characters are not both whitespace. -/
def noWsPair (a b : Char) : Prop := isWsB a = false ∨ isWsB b = false

/-- Adjacent characters are not both punctuation of the collapsing class. -/
def noPunctPair (a b : Char) : Prop := isPunctB a = false ∨ isPunctB b = false

/-- The six collapsed punctuation characters are not whitespace. -/
theorem punct_not_ws (c : Char) (h : isPunctB c = true) : isWsB c = false := by
  unfold isPunctB at h
  simp only [Bool.or_eq_true, decide_eq_true_eq] at h
  have hc : c = '?' ∨ c = '.' ∨ c = '!' ∨ c = ',' ∨ c = ';' ∨ c = ':' := by tauto
  rcases hc with rfl | rfl | rfl | rfl | rfl | rfl <;> decide

/-- The head of a dropWhile result does not satisfy the predicate. -/
theorem head?_dropWhile_false (p : Char → Bool) (l : Str) (c : Char)
    (h : (l.dropWhile p).head? = some c) : p c = false := by
  induction l with
  | nil => simp at h
  | cons a as ih =>
    rw [List.dropWhile_cons] at h
    by_cases hp : p a
    · rw [if_pos hp] at h
      exact ih h
    · rw [if_neg hp] at h
      simp only [List.head?_cons, Option.some.injEq] at h
      rw [← h]
      exact Bool.eq_false_iff.mpr hp

/-- dropEdges removes a prefix from the dropWhile result. -/
theorem dropEdges_tail_of_dropWhile (p : Char → Bool) (l : Str) :
    dropEdges p l <+: l.dropWhile p := by
  rw [dropEdges, ← List.reverse_suffix, List.reverse_reverse]
  exact List.dropWhile_suffix p

/-- dropEdges yields a contiguous piece of the original list. -/
theorem dropEdges_inside (p : Char → Bool) (l : Str) : dropEdges p l <:+: l :=
  List.IsInfix.trans (List.IsPrefix.isInfix (dropEdges_tail_of_dropWhile p l))
    (List.IsSuffix.isInfix (List.dropWhile_suffix p))

/-- The head of a dropEdges result does not satisfy the predicate. -/
theorem dropEdges_head (p : Char → Bool) (l : Str) (c : Char)
    (h : (dropEdges p l).head? = some c) : p c = false := by
  obtain ⟨t, ht⟩ := dropEdges_tail_of_dropWhile p l
  apply head?_dropWhile_false p l c
  rw [← ht]
  cases hde : dropEdges p l with
  | nil => rw [hde] at h; cases h
  | cons x xs =>
    rw [hde] at h
    simp only [List.head?_cons, Option.some.injEq] at h
    simp [h]

/-- The last element of a dropEdges result does not satisfy the predicate. -/
theorem dropEdges_last (p : Char → Bool) (l : Str) (c : Char)
    (h : (dropEdges p l).getLast? = some c) : p c = false := by
  rw [dropEdges, List.getLast?_reverse] at h
  exact head?_dropWhile_false p _ c h

/-- dropWhile is the identity when the head fails the predicate. -/
theorem dropWhile_eq_self_of_head (p : Char → Bool) (l : Str)
    (h : ∀ c, l.head? = some c → p c = false) : l.dropWhile p = l := by
  cases l with
  | nil => rfl
  | cons a as =>
    rw [List.dropWhile_cons, if_neg]
    rw [h a rfl]
    simp

/-- dropEdges is the identity when neither edge satisfies the predicate. -/
theorem dropEdges_eq_self (p : Char → Bool) (l : Str)
    (hh : ∀ c, l.head? = some c → p c = false)
    (hl : ∀ c, l.getLast? = some c → p c = false) : dropEdges p l = l := by
  rw [dropEdges, dropWhile_eq_self_of_head p l hh, dropWhile_eq_self_of_head p _
    (fun c hc => hl c (by rwa [List.head?_reverse] at hc)), List.reverse_reverse]

/-- Every whitespace character produced by the collapsing scanner is a space. -/
theorem collapseWsAux_ws_space (b : Bool) (s : Str) :
    ∀ c ∈ collapseWsAux b s, isWsB c = true → c = ' ' := by
  induction s generalizing b with
  | nil => intro c hc; simp [collapseWsAux] at hc
  | cons a as ih =>
    intro c hc hws
    rw [collapseWsAux] at hc
    by_cases ha : isWsB a
    · rw [if_pos ha] at hc
      by_cases hb : b
      · rw [if_pos hb] at hc
        exact ih true c hc hws
      · rw [if_neg hb] at hc
        rcases List.mem_cons.mp hc with h0 | h1
        · exact h0
        · exact ih true c h1 hws
    · rw [if_neg ha] at hc
      rcases List.mem_cons.mp hc with h0 | h1
      · rw [h0] at hws
        exact absurd hws ha
      · exact ih false c h1 hws

/-- After a whitespace character the scanner next emits a non-whitespace
character, if anything. -/
theorem collapseWsAux_true_head (s : Str) (c : Char)
    (h : (collapseWsAux true s).head? = some c) : isWsB c = false := by
  induction s with
  | nil => simp [collapseWsAux] at h
  | cons a as ih =>
    rw [collapseWsAux] at h
    by_cases ha : isWsB a
    · rw [if_pos ha, if_pos rfl] at h
      exact ih h
    · rw [if_neg ha] at h
      simp only [List.head?_cons, Option.some.injEq] at h
      rw [← h]
      exact Bool.eq_false_iff.mpr ha

/-- The collapsing scanner never emits two adjacent whitespace characters. -/
theorem collapseWsAux_chain (b : Bool) (s : Str) :
    List.Chain' noWsPair (collapseWsAux b s) := by
  induction s generalizing b with
  | nil => simp [collapseWsAux]
  | cons a as ih =>
    rw [collapseWsAux]
    by_cases ha : isWsB a
    · rw [if_pos ha]
      by_cases hb : b
      · rw [if_pos hb]; exact ih true
      · rw [if_neg hb]
        refine List.chain'_cons'.mpr ⟨?_, ih true⟩
        intro y hy
        exact Or.inr (collapseWsAux_true_head as y hy)
    · rw [if_neg ha]
      refine List.chain'_cons'.mpr ⟨?_, ih false⟩
      intro y _
      exact Or.inl (Bool.eq_false_iff.mpr ha)

/-- With a non-whitespace head the scanner flag does not matter. -/
theorem collapseWsAux_true_eq_false (s : Str)
    (h : ∀ c, s.head? = some c → isWsB c = false) :
    collapseWsAux true s = collapseWsAux false s := by
  cases s with
  | nil => rfl
  | cons a as =>
    have ha : isWsB a = false := h a rfl
    rw [collapseWsAux, collapseWsAux, ha]
    simp

/-- The collapsing scanner is the identity on a list with no adjacent
whitespace whose whitespace characters are all spaces. -/
theorem collapseWsAux_eq_self (t : Str) (hch : List.Chain' noWsPair t)
    (hall : ∀ c ∈ t, isWsB c = true → c = ' ') : collapseWsAux false t = t := by
  induction t with
  | nil => rfl
  | cons a as ih =>
    have hpair := (List.chain'_cons'.mp hch).1
    have htail := (List.chain'_cons'.mp hch).2
    rw [collapseWsAux]
    by_cases ha : isWsB a
    · rw [if_pos ha]
      have ha2 : a = ' ' := hall a (List.mem_cons_self _ _) ha
      have hhead : ∀ c, as.head? = some c → isWsB c = false := by
        intro c hc
        rcases hpair c hc with h0 | h1
        · rw [ha] at h0
          cases h0
        · exact h1
      rw [collapseWsAux_true_eq_false as hhead,
        ih htail (fun c hc hw => hall c (List.mem_cons_of_mem _ hc) hw), ha2]
      simp
    · rw [if_neg ha,
        ih htail (fun c hc hw => hall c (List.mem_cons_of_mem _ hc) hw)]

/-- Punctuation collapsing only deletes characters. -/
theorem collapsePunct_sublist (s : Str) : List.Sublist (collapsePunct s) s := by
  induction s with
  | nil => simp [collapsePunct]
  | cons a cs ih =>
    cases cs with
    | nil => rw [collapsePunct]
    | cons d rest =>
      rw [collapsePunct]
      by_cases h : isPunctB a && isPunctB d
      · rw [if_pos h]
        exact ih.cons a
      · rw [if_neg h]
        exact ih.cons₂ a

/-- The collapse of a list with a non-punctuation head keeps that head. -/
theorem collapsePunct_head_eq (d : Char) (rest : Str) (hd : isPunctB d = false) :
    (collapsePunct (d :: rest)).head? = some d := by
  cases rest with
  | nil =>
    rw [collapsePunct]
    rfl
  | cons e r2 =>
    rw [collapsePunct, if_neg (by simp [hd])]
    rfl

/-- The head of a collapsed list is the original head or a punctuation
character (the last of a leading punctuation run). -/
theorem collapsePunct_head (s : Str) (c : Char)
    (h : (collapsePunct s).head? = some c) :
    s.head? = some c ∨ isPunctB c = true := by
  induction s with
  | nil => simp [collapsePunct] at h
  | cons a cs ih =>
    cases cs with
    | nil =>
      rw [collapsePunct] at h
      exact Or.inl h
    | cons d rest =>
      rw [collapsePunct] at h
      by_cases hp : isPunctB a && isPunctB d
      · rw [if_pos hp] at h
        simp only [Bool.and_eq_true] at hp
        rcases ih h with h1 | h2
        · simp only [List.head?_cons, Option.some.injEq] at h1
          exact Or.inr (h1 ▸ hp.2)
        · exact Or.inr h2
      · rw [if_neg hp] at h
        simp only [List.head?_cons, Option.some.injEq] at h
        exact Or.inl (by rw [h]; rfl)

/-- Collapsing leaves no two adjacent punctuation characters. -/
theorem collapsePunct_chain (s : Str) : List.Chain' noPunctPair (collapsePunct s) := by
  induction s with
  | nil => simp [collapsePunct]
  | cons a cs ih =>
    cases cs with
    | nil => simp [collapsePunct]
    | cons d rest =>
      rw [collapsePunct]
      by_cases hp : isPunctB a && isPunctB d
      · rw [if_pos hp]
        exact ih
      · rw [if_neg hp]
        refine List.chain'_cons'.mpr ⟨?_, ih⟩
        intro y hy
        cases hd : isPunctB d with
        | false =>
          rw [collapsePunct_head_eq d rest hd] at hy
          injection hy with hy
          exact Or.inr (hy ▸ hd)
        | true =>
          have ha : isPunctB a = false := by
            cases hq : isPunctB a with
            | false => rfl
            | true => exact absurd (by simp [hq, hd]) hp
          exact Or.inl ha

/-- Collapsing preserves the absence of adjacent whitespace. -/
theorem collapsePunct_chain_ws (s : Str) (hch : List.Chain' noWsPair s) :
    List.Chain' noWsPair (collapsePunct s) := by
  induction s with
  | nil => simp [collapsePunct]
  | cons a cs ih =>
    have hpair := (List.chain'_cons'.mp hch).1
    have htail := (List.chain'_cons'.mp hch).2
    cases cs with
    | nil => simp [collapsePunct]
    | cons d rest =>
      rw [collapsePunct]
      by_cases hp : isPunctB a && isPunctB d
      · rw [if_pos hp]
        exact ih htail
      · rw [if_neg hp]
        refine List.chain'_cons'.mpr ⟨?_, ih htail⟩
        intro y hy
        rcases collapsePunct_head (d :: rest) y hy with h1 | h2
        · exact hpair y h1
        · exact Or.inr (punct_not_ws y h2)

/-- Collapsing is the identity on a list with no adjacent punctuation. -/
theorem collapsePunct_eq_self (t : Str) (hch : List.Chain' noPunctPair t) :
    collapsePunct t = t := by
  induction t with
  | nil => rfl
  | cons a cs ih =>
    have hpair := (List.chain'_cons'.mp hch).1
    have htail := (List.chain'_cons'.mp hch).2
    cases cs with
    | nil => rw [collapsePunct]
    | cons d rest =>
      rw [collapsePunct]
      have hp : (isPunctB a && isPunctB d) = false := by
        rcases hpair d rfl with h1 | h2
        · rw [Bool.and_eq_false_iff]
          exact Or.inl h1
        · rw [Bool.and_eq_false_iff]
          exact Or.inr h2
      rw [if_neg (by simp [hp]), ih htail]

/-- A chain restricted to a contiguous piece of the list. -/
theorem chain'_of_piece {R : Char → Char → Prop} {l t : Str}
    (h : List.Chain' R l) (hp : t <:+: l) : List.Chain' R t :=
  List.Chain'.infix h hp

/-- The accepted normalized text, when no truncation happens, is the strip of
the punctuation cleanup of the whitespace cleanup. -/
theorem normalize_ok_normalized (maxLength : Nat) (q : Str) (nq : NormalizedQuery)
    (hok : normalize maxLength q = .ok nq)
    (hlen : (stripWs (cleanPunctuation (cleanWhitespace q))).length ≤ maxLength) :
    nq.normalized = stripWs (cleanPunctuation (cleanWhitespace q)) := by
  rw [normalize] at hok
  by_cases hq : stripWs q = []
  · rw [if_pos hq] at hok
    cases hok
  · rw [if_neg hq] at hok
    dsimp only at hok
    injection hok with hok
    rw [← hok]
    dsimp only
    rw [if_neg (Nat.not_lt.mpr hlen)]

/-- The normalized text has no adjacent whitespace, no adjacent punctuation,
and only spaces as whitespace. -/
theorem normalized_invariants (q : Str) :
    List.Chain' noWsPair (stripWs (cleanPunctuation (cleanWhitespace q))) ∧
    List.Chain' noPunctPair (stripWs (cleanPunctuation (cleanWhitespace q))) ∧
    (∀ c ∈ stripWs (cleanPunctuation (cleanWhitespace q)),
      isWsB c = true → c = ' ') := by
  have hcw_chain : List.Chain' noWsPair (cleanWhitespace q) :=
    chain'_of_piece (collapseWsAux_chain false q)
      (dropEdges_inside isWsB (collapseWsAux false q))
  have hcw_ws : ∀ c ∈ cleanWhitespace q, isWsB c = true → c = ' ' :=
    fun c hc => collapseWsAux_ws_space false q c
      ((dropEdges_inside isWsB (collapseWsAux false q)).subset hc)
  have hp_chain_ws : List.Chain' noWsPair (collapsePunct (cleanWhitespace q)) :=
    collapsePunct_chain_ws _ hcw_chain
  have hp_chain_pp : List.Chain' noPunctPair (collapsePunct (cleanWhitespace q)) :=
    collapsePunct_chain _
  have hp_ws : ∀ c ∈ collapsePunct (cleanWhitespace q), isWsB c = true → c = ' ' :=
    fun c hc => hcw_ws c ((collapsePunct_sublist _).subset hc)
  have hcp_chain_ws : List.Chain' noWsPair (cleanPunctuation (cleanWhitespace q)) :=
    chain'_of_piece hp_chain_ws (dropEdges_inside isEdgePunctB _)
  have hcp_chain_pp : List.Chain' noPunctPair (cleanPunctuation (cleanWhitespace q)) :=
    chain'_of_piece hp_chain_pp (dropEdges_inside isEdgePunctB _)
  have hcp_ws : ∀ c ∈ cleanPunctuation (cleanWhitespace q), isWsB c = true → c = ' ' :=
    fun c hc => hp_ws c ((dropEdges_inside isEdgePunctB _).subset hc)
  exact ⟨chain'_of_piece hcp_chain_ws (dropEdges_inside isWsB _),
    chain'_of_piece hcp_chain_pp (dropEdges_inside isWsB _),
    fun c hc hw => hcp_ws c ((dropEdges_inside isWsB _).subset hc) hw⟩

/-- C7 (amended): normalization is idempotent for every accepted query whose
normalized text is non-empty, was not truncated by the length cap, and does
not begin or end with a strippable punctuation character.  The counterexample
shows it is not idempotent in general (a trailing strippable punctuation
character can survive the first pass because the trailing-punctuation regex
runs before the final whitespace strip; truncation and queries normalizing to
the empty string break it as well). -/
theorem normalize_idempotent_conditional (maxLength : Nat) (q : Str)
    (nq : NormalizedQuery)
    (hok : normalize maxLength q = .ok nq)
    (hne : nq.normalized ≠ [])
    (hlen : (stripWs (cleanPunctuation (cleanWhitespace q))).length ≤ maxLength)
    (hhead : ∀ c, nq.normalized.head? = some c → isEdgePunctB c = false)
    (hlast : ∀ c, nq.normalized.getLast? = some c → isEdgePunctB c = false) :
    Except.map (fun n => n.normalized) (normalize maxLength nq.normalized) =
      .ok nq.normalized := by
  have ht := normalize_ok_normalized maxLength q nq hok hlen
  obtain ⟨hws, hpp, hsp⟩ := normalized_invariants q
  set t := stripWs (cleanPunctuation (cleanWhitespace q)) with htdef
  rw [ht] at hne hhead hlast ⊢
  have hh_ws : ∀ c, t.head? = some c → isWsB c = false :=
    fun c hc => dropEdges_head isWsB (cleanPunctuation (cleanWhitespace q)) c hc
  have hl_ws : ∀ c, t.getLast? = some c → isWsB c = false :=
    fun c hc => dropEdges_last isWsB (cleanPunctuation (cleanWhitespace q)) c hc
  have hstrip : stripWs t = t := dropEdges_eq_self isWsB t hh_ws hl_ws
  have hcw : cleanWhitespace t = t := by
    rw [cleanWhitespace, collapseWsAux_eq_self t hws hsp]
    exact hstrip
  have hcp : cleanPunctuation t = t := by
    rw [cleanPunctuation, collapsePunct_eq_self t hpp]
    exact dropEdges_eq_self isEdgePunctB t hhead hlast
  rw [normalize]
  rw [if_neg (by rw [hstrip]; exact hne)]
  dsimp only
  rw [hcw, hcp, hstrip]
  rw [if_neg (Nat.not_lt.mpr hlen)]
  rfl

/-- Witness for C7 at the concrete query "hello world". -/
theorem normalize_idempotent_conditional_witness :
    Except.map (fun n => n.normalized) (normalize 512 "hello world".data) =
      .ok ({ original := "hello world".data
             normalized := "hello world".data
             detectedLanguage := none
             charCount := 11
             wasModified := false } : NormalizedQuery).normalized :=
  normalize_idempotent_conditional 512 "hello world".data
    { original := "hello world".data
      normalized := "hello world".data
      detectedLanguage := none
      charCount := 11
      wasModified := false }
    (by decide) (by decide) (by decide) (by decide) (by decide)

/-- Counterexample to C7 as stated: normalizing "a. ." yields "a." (the
trailing-punctuation strip runs before the final whitespace strip), and
normalizing "a." again yields "a" - idempotence fails. -/
theorem normalize_not_idempotent_counterexample :
    Except.map (fun n => n.normalized) (normalize 512 "a. .".data) =
      .ok "a.".data ∧
    Except.map (fun n => n.normalized) (normalize 512 "a.".data) =
      .ok "a".data ∧
    ("a.".data : Str) ≠ "a".data := by decide

end Functiomed
